import Mathlib

/-!
Verification of the streamflow reconstruction and denoising core of
`hydrodatasource` (`hydrodatasource/cleaner/streamflow_cleaner.py`).

Series are shallowly embedded as `List (Option ℚ)`: `none` models a missing
value (pandas `NaN`), `some q` a finite numeric value.  Arithmetic on such
values propagates `none` the way IEEE NaN propagates; a division whose
denominator is zero also yields `none` (in floating point it yields
`inf`/`NaN`; at every modelled call site the quantities multiplied by such a
scale are `0` or `NaN`, so the result is `NaN` and `none` is faithful).
Sums of series model `pandas.Series.sum` / `np.sum` on a Series, which skip
missing values.

The branches of the method dispatch whose numerics live in SciPy
(`butter`/`filtfilt`, `fft`, `cwt`, `curve_fit`) and the pure-numpy Kalman
filter are external numerical routines; the claims below concern the
branches modelled here (`moving_average`, strided `rolling_mean`, the
adaptive moving average and the composite `EMA` smoother), together with
the pipeline orchestration, the volume balancer and the backtrack stages.
-/

namespace Streamflow

/-- NaN-propagating addition on optional rationals. -/
def oadd : Option ℚ → Option ℚ → Option ℚ
  | some a, some b => some (a + b)
  | _, _ => none

/-- NaN-propagating subtraction on optional rationals. -/
def osub : Option ℚ → Option ℚ → Option ℚ
  | some a, some b => some (a - b)
  | _, _ => none

/-- NaN-propagating multiplication on optional rationals. -/
def omul : Option ℚ → Option ℚ → Option ℚ
  | some a, some b => some (a * b)
  | _, _ => none

/-- NaN-propagating division; a zero denominator gives an undefined value
(`inf`/`NaN` in floating point, `none` here). -/
def odiv : Option ℚ → Option ℚ → Option ℚ
  | some a, some b => if b = 0 then none else some (a / b)
  | _, _ => none

/-- Sum of a series with pandas `skipna` semantics: missing entries are
ignored (`np.sum` of a pandas Series). -/
def nansum (xs : List (Option ℚ)) : ℚ :=
  (xs.filterMap id).sum

/-- Number of non-missing entries of a window (`Series.count`). -/
def ocount (xs : List (Option ℚ)) : ℕ :=
  (xs.filterMap id).length

/-- Mean with `skipna` semantics (`Series.mean`): `NaN` when no value is
present. -/
def nanmean (xs : List (Option ℚ)) : Option ℚ :=
  if ocount xs = 0 then none else some (nansum xs / ocount xs)

/-- `StreamflowCleaner.data_balanced` (streamflow_cleaner.py lines 46-60):
`scaling_factor = sum(origin) / sum(transform)`, return
`transform * scaling_factor`.  A zero transformed sum makes the factor
undefined. -/
def data_balanced (origin_data transform_data : List (Option ℚ)) :
    List (Option ℚ) :=
  let streamflow_data_before := nansum origin_data
  let streamflow_data_after := nansum transform_data
  let scaling_factor : Option ℚ :=
    if streamflow_data_after = 0 then none
    else some (streamflow_data_before / streamflow_data_after)
  transform_data.map (fun v => omul v scaling_factor)

/-- Centered rolling mean with the pandas default `min_periods = window`
(`Series.rolling(window, center=True).mean()`): position `i` holds the mean
of positions `i - (w-1)/2 .. i + w/2` when that window lies fully inside the
series and all its values are present, `NaN` otherwise. -/
def rollingCenterMean (w : ℕ) (xs : List (Option ℚ)) : List (Option ℚ) :=
  (List.range xs.length).map (fun i =>
    if (w - 1) / 2 ≤ i ∧ i + w / 2 < xs.length then
      let win := (xs.drop (i - (w - 1) / 2)).take w
      if win.all (fun v => v.isSome) then
        some (nansum win / (w : ℚ))
      else none
    else none)

/-- Forward fill (`Series.ffill`): each missing entry takes the most recent
earlier value, if any. -/
def ffillFrom (acc : Option ℚ) : List (Option ℚ) → List (Option ℚ)
  | [] => []
  | some v :: rest => some v :: ffillFrom (some v) rest
  | none :: rest => acc :: ffillFrom acc rest

/-- `Series.ffill`. -/
def ffill (xs : List (Option ℚ)) : List (Option ℚ) :=
  ffillFrom none xs

/-- Backward fill (`Series.bfill`): each missing entry takes the nearest
later value, if any. -/
def bfill (xs : List (Option ℚ)) : List (Option ℚ) :=
  (ffill xs.reverse).reverse

/-- `smoothed_series[smoothed_series < 0] = 0`: negative values are clamped
to zero, missing values stay missing (a NaN comparison is false). -/
def clamp0 (xs : List (Option ℚ)) : List (Option ℚ) :=
  xs.map (Option.map (fun q => if q < 0 then 0 else q))

/-- The smoothed series built inside `StreamflowCleaner.moving_average`
(lines 72-81): centered rolling mean, boundary `bfill` then `ffill`,
negatives clamped. -/
def movingAverageSmoothed (w : ℕ) (xs : List (Option ℚ)) : List (Option ℚ) :=
  clamp0 (ffill (bfill (rollingCenterMean w xs)))

/-- `StreamflowCleaner.moving_average` (lines 62-86): smooth, then balance
the total volume against the input. -/
def movingAverage (w : ℕ) (xs : List (Option ℚ)) : List (Option ℚ) :=
  data_balanced xs (movingAverageSmoothed w xs)

/-- First defined value of a list together with its index
(helper for positional linear interpolation). -/
def firstSomeIdx : List (Option ℚ) → Option (ℕ × ℚ)
  | [] => none
  | some v :: _ => some (0, v)
  | none :: rest => (firstSomeIdx rest).map (fun p => (p.1 + 1, p.2))

/-- Value of `Series.interpolate()` (pandas linear, positional) at
position `k`: a present value is kept; a missing value strictly between a
previous defined value `a` (distance `δ₁` back) and a next defined value
`b` (distance `δ₂` forward) becomes `a + (b-a)·δ₁/(δ₁+δ₂)`; trailing
missing values repeat the last defined value; leading missing values stay
missing. -/
def interpPos (xs : List (Option ℚ)) (k : ℕ) : Option ℚ :=
  match xs.get? k with
  | some (some v) => some v
  | _ =>
    match firstSomeIdx (xs.take k).reverse, firstSomeIdx (xs.drop (k + 1)) with
    | some (dp, a), some (dn, b) =>
        some (a + (b - a) * ((dp : ℚ) + 1) / (((dp : ℚ) + 1) + ((dn : ℚ) + 1)))
    | some (_, a), none => some a
    | _, _ => none

/-- `streamflow_data.interpolate().fillna(0)` (line 391): linear
interpolation, then any still-missing (leading) position becomes `0`. -/
def interpolateFill0 (xs : List (Option ℚ)) : List (Option ℚ) :=
  (List.range xs.length).map (fun k => some ((interpPos xs k).getD 0))

/-- `StreamflowCleaner.adjust_window` (lines 120-124): `NaN` for a window
with no present value, else the window's (skipna) mean. -/
def adjust_window (window : List (Option ℚ)) : Option ℚ :=
  if ocount window = 0 then none else nanmean window

/-- The window start offsets of `range(0, len(df) - window_size + 1,
stride)` in `rolling_with_stride` (line 130); `stride ≥ 1` is assumed, as
in the source defaults. -/
def strideStarts (n w s : ℕ) : List ℕ :=
  if w ≤ n then (List.range ((n - w) / s + 1)).map (fun k => k * s) else []

/-- `StreamflowCleaner.rolling_with_stride` (lines 126-138): an all-`NaN`
series of the input's length, with `func` of each strided window written
at the window's center index `i + window // 2`. -/
def rollingWithStride (w s : ℕ) (xs : List (Option ℚ)) : List (Option ℚ) :=
  (strideStarts xs.length w s).foldl
    (fun acc i => acc.set (i + w / 2) (adjust_window ((xs.drop i).take w)))
    (List.replicate xs.length none)

/-- `cur.fillna(src)`: missing entries are taken from the other series
(line 416 backfills from the original `INQ` column). -/
def fillnaFrom (cur src : List (Option ℚ)) : List (Option ℚ) :=
  List.zipWith (fun c s => match c with | none => s | some v => some v) cur src

/-- Line 428: `processed[method][origin_inq.isna()] = nan` — positions
missing in the raw input are set back to missing. -/
def applyMask (raw ys : List (Option ℚ)) : List (Option ℚ) :=
  List.zipWith (fun r y => match r with | none => none | some _ => y) raw ys

/-- The method names dispatched in `anomaly_process` that are modelled
here; every name outside the vocabulary is reported and skipped by the
source, which `unknown` models.  The remaining vocabulary entries
(`kalman`, `moving_average_diff`, `robfit`, `lowpass`, `FFT`, `wavelet`,
`EMA`) delegate their numerics to SciPy/numpy routines (or, for `EMA`, are
modelled separately below) and are outside this dispatch model. -/
inductive Method where
  | moving_average : Method
  | rolling_mean : Method
  | unknown : String → Method
deriving DecidableEq

/-- One branch of the dispatch in `anomaly_process` (lines 393-422). -/
def applyMethod (w s : ℕ) (raw cur : List (Option ℚ)) :
    Method → List (Option ℚ)
  | Method.moving_average => movingAverage w cur
  | Method.rolling_mean => fillnaFrom (rollingWithStride w s cur) raw
  | Method.unknown _ => cur

/-- The working series after the whole method chain, before re-masking:
interpolate-and-zero-fill the raw series, then fold the methods over it. -/
def chainResult (w s : ℕ) (raw : List (Option ℚ)) (methods : List Method) :
    List (Option ℚ) :=
  methods.foldl (fun cur m => applyMethod w s raw cur m) (interpolateFill0 raw)

/-- `StreamflowCleaner.anomaly_process` (lines 385-428) on the `INQ`
column: run the chain, then null out the positions that were missing in
the raw input. -/
def anomaly_process (w s : ℕ) (raw : List (Option ℚ))
    (methods : List Method) : List (Option ℚ) :=
  applyMask raw (chainResult w s raw methods)

/-- The claim's description of a strided window's contribution: an
all-missing window contributes `NaN`, any other window its mean. -/
def windowMeanSpec (win : List (Option ℚ)) : Option ℚ :=
  if win.all (fun v => v.isNone) then none
  else some (nansum win / (ocount win : ℚ))

/-- `current_value >= threshold` with pandas semantics: a missing value
compares false. -/
def optGe (v : Option ℚ) (θ : ℚ) : Bool :=
  match v with
  | some q => decide (θ ≤ q)
  | none => false

/-- Strict variant (`current_value > threshold`), the reading "exceeds the
threshold" used by the claim's wording. -/
def optGt (v : Option ℚ) (θ : ℚ) : Bool :=
  match v with
  | some q => decide (θ < q)
  | none => false

/-- The window-width update of `adaptive_moving_average` (lines 299-302):
at or above the threshold the window is floor-halved (not below the floor),
otherwise doubled (not above the ceiling). -/
def amaStep (θ : ℚ) (wmin wmax decay : ℕ) (cw : ℕ) (v : Option ℚ) : ℕ :=
  if optGe v θ then max wmin (cw / decay) else min wmax (cw * decay)

/-- The window-width update as the claim words it, with a strict
threshold comparison. -/
def amaStepStrict (θ : ℚ) (wmin wmax decay : ℕ) (cw : ℕ) (v : Option ℚ) : ℕ :=
  if optGt v θ then max wmin (cw / decay) else min wmax (cw * decay)

/-- The loop of `adaptive_moving_average` (lines 294-320): `rows` is the
full indexed series (timestamp in hours, value), `t0`/`tlast`/`n` its first
timestamp, last timestamp and length; the loop state is the position `i`
and the current window width `cw`.  Each step first updates the width from
the current value, then averages the label slice
`streamflow_data[start_date:end_date]` (both endpoints included, as pandas
label slicing does on a sorted index). -/
def amaGo (θ : ℚ) (wmin wmax decay : ℕ) (rows : List (ℕ × Option ℚ))
    (t0 tlast n : ℕ) : ℕ → ℕ → List (ℕ × Option ℚ) → List (Option ℚ)
  | _, _, [] => []
  | i, cw, (t, v) :: rest =>
    let cw' := amaStep θ wmin wmax decay cw v
    let half := cw' / 2
    let start := if i < half then t0 else t - half
    let stop := if n ≤ i + half then tlast else t + half
    nanmean ((rows.filter
        (fun p => decide (start ≤ p.1 ∧ p.1 ≤ stop))).map Prod.snd)
      :: amaGo θ wmin wmax decay rows t0 tlast n (i + 1) cw' rest

/-- `StreamflowCleaner.adaptive_moving_average` (lines 277-322) over a
sorted, duplicate-free series of (hour, value) rows. -/
def adaptive_moving_average (θ : ℚ)
    (initial_window min_window max_window decay_factor : ℕ)
    (rows : List (ℕ × Option ℚ)) : List (Option ℚ) :=
  amaGo θ min_window max_window decay_factor rows
    ((rows.head?.map Prod.fst).getD 0)
    ((rows.getLast?.map Prod.fst).getD 0)
    rows.length 0 initial_window rows

/-- An hourly-regular indexed series: row `k` carries timestamp
`t0 + k`. -/
def hourlyRows (t0 : ℕ) : List (Option ℚ) → List (ℕ × Option ℚ)
  | [] => []
  | v :: vs => (t0, v) :: hourlyRows (t0 + 1) vs

/-- The claim's positional description of the adaptive moving average,
parameterized by the width-update rule: at position `i` the width evolves
through `step` over the values seen so far, and the output is the mean of
the positions within the half-window on each side, clipped to the series
boundaries. -/
def amaSpecWith (step : ℕ → Option ℚ → ℕ) (winit : ℕ)
    (vals : List (Option ℚ)) : List (Option ℚ) :=
  (List.range vals.length).map (fun i =>
    let w := (vals.take (i + 1)).foldl step winit
    let half := w / 2
    let lo := i - half
    let hi := min (i + half) (vals.length - 1)
    nanmean ((vals.drop lo).take (hi + 1 - lo)))

/-- `df[~df.index.duplicated(keep='last')]` (line 352): keep a row only if
no later row has the same timestamp. -/
def dedupKeepLast : List (ℕ × Option ℚ) → List (ℕ × Option ℚ)
  | [] => []
  | r :: rest =>
    if (rest.map Prod.fst).contains r.1 then dedupKeepLast rest
    else r :: dedupKeepLast rest

/-- `StreamflowCleaner.EMA` (lines 337-383): attach the (already imputed)
series to the timestamp index, deduplicate timestamps keeping the last
occurrence, run two adaptive moving averages (high-flow and low-flow
window bounds), select per row by calendar month (months 5-10 take the
first), and volume-balance the result against the input series.
`monthOf` abstracts the pandas month extraction of a timestamp. -/
def EMA (monthOf : ℕ → ℕ) (ts : List ℕ) (vals : List (Option ℚ)) :
    List (Option ℚ) :=
  let rows := dedupKeepLast (ts.zip vals)
  let inqa := adaptive_moving_average 40 168 24 168 2 rows
  let inqb := adaptive_moving_average 40 168 168 720 2 rows
  let inqc := (rows.zip (inqa.zip inqb)).map (fun p =>
    if [5, 6, 7, 8, 9, 10].contains (monthOf p.1.1) then p.2.1 else p.2.2)
  data_balanced vals inqc

/-- `Series.interpolate()` alone (no zero fill): linear positional
interpolation. -/
def interpolateSeries (xs : List (Option ℚ)) : List (Option ℚ) :=
  (List.range xs.length).map (fun k => interpPos xs k)

/-- One step of the scan in `linear_interpolate` inside
`StreamflowBacktrack.insert_inq` (lines 588-607): walking the positions in
order, at each defined position either record it as the first anchor, or —
when the gap to the previous anchor is strictly below the threshold —
interpolate the slice between the anchors in place. -/
def liStep (θ : ℕ) (st : List (Option ℚ) × Option ℕ) (i : ℕ) :
    List (Option ℚ) × Option ℕ :=
  match st.1.get? i with
  | some (some _) =>
    match st.2 with
    | none => (st.1, some i)
    | some s =>
      if i - s - 1 < θ then
        (st.1.take s
          ++ interpolateSeries ((st.1.drop s).take (i + 1 - s))
          ++ st.1.drop (i + 1), some i)
      else (st.1, some i)
  | _ => (st.1, st.2)

/-- `linear_interpolate(df, column, threshold=168)` (lines 588-609) on the
hourly-reindexed series. -/
def linear_interpolate (θ : ℕ) (xs : List (Option ℚ)) : List (Option ℚ) :=
  ((List.range xs.length).foldl (liStep θ) (xs, none)).1

/-- One row of the backtrack CSVs: timestamp (epoch seconds), inflow INQ,
storage W, outflow OTQ; the passthrough fields play no role in the
computation. -/
structure BRow where
  tm : ℕ
  inq : Option ℚ
  w : Option ℚ
  otq : Option ℚ

/-- `data["TM"].diff().dt.total_seconds().fillna(0)` (line 475): seconds
between consecutive rows, `0` for the first row. -/
def timeDiffAt (rows : List BRow) (i : ℕ) : ℚ :=
  if i = 0 then 0
  else
    match rows.get? i, rows.get? (i - 1) with
    | some r, some p => (r.tm : ℚ) - (p.tm : ℚ)
    | _, _ => 0

/-- `data["INQ_ACC"] = data["OTQ"] + 10**6 * (data["W"].diff() /
data["Time_Diff"])` (line 476): the derived inflow of row `i`.  The first
row's `ΔW` is `NaN`; a zero time delta makes the division undefined. -/
def inqAccAt (rows : List BRow) (i : ℕ) : Option ℚ :=
  match rows.get? i with
  | none => none
  | some r =>
    let dW : Option ℚ :=
      if i = 0 then none
      else
        match rows.get? (i - 1) with
        | some p => osub r.w p.w
        | none => none
    oadd r.otq (omul (some ((10 : ℚ) ^ 6)) (odiv dW (some (timeDiffAt rows i))))

/-- `data["INQ_CB"] = data["INQ"].fillna(data["INQ_ACC"])`, then
`data["INQ"] = data["INQ_CB"]` (lines 477-480): the final inflow column of
`back_calculation`. -/
def back_calculation_inq (rows : List BRow) : List (Option ℚ) :=
  (List.range rows.length).map (fun i =>
    match rows.get? i with
    | some r =>
      match r.inq with
      | some q => some q
      | none => inqAccAt rows i
    | none => none)

/-- `StreamflowBacktrack.__init__` state (lines 432-435). -/
structure StreamflowBacktrack where
  data_folder : String
  output_folder : String
  file_name : Option String

/-- `StreamflowBacktrack.__init__`: line 434 assigns `data_folder`, not
the `output_folder` argument, to `self.output_folder`. -/
def StreamflowBacktrack.init (data_folder output_folder : String)
    (file_name : Option String) : StreamflowBacktrack :=
  { data_folder := data_folder, output_folder := data_folder,
    file_name := file_name }

/-- `os.path.join` for the non-absolute second arguments used here. -/
def pathJoin (a b : String) : String := a ++ "/" ++ b

/-- `file[:-4]`: the csv file name without its extension. -/
def stemOf (file : String) : String := file.dropRight 4

/-- The per-file stage output folder of `process_backtrack` (line 665):
`os.path.join(self.output_folder, file[:-4])`. -/
def processOutputFolder (s : StreamflowBacktrack) (file : String) : String :=
  pathJoin s.output_folder (stemOf file)

theorem nansum_nil : nansum [] = 0 := rfl

theorem nansum_cons_some (a : ℚ) (l : List (Option ℚ)) :
    nansum (some a :: l) = a + nansum l := by
  simp [nansum, List.filterMap_cons]

theorem nansum_cons_none (l : List (Option ℚ)) :
    nansum (none :: l) = nansum l := by
  simp [nansum, List.filterMap_cons]

theorem nansum_map_some (l : List ℚ) : nansum (l.map some) = l.sum := by
  induction l with
  | nil => rfl
  | cons a l ih => simp [nansum_cons_some, ih]

theorem omul_none (v : Option ℚ) : omul v none = none := by
  cases v <;> rfl

/-- Rescaling every present entry by a fixed factor rescales the skipna
sum by that factor. -/
theorem nansum_scale (c : ℚ) (xs : List (Option ℚ)) :
    nansum (xs.map (fun v => omul v (some c))) = nansum xs * c := by
  induction xs with
  | nil => simp [nansum_nil]
  | cons a l ih =>
    cases a with
    | none =>
      have h1 : omul none (some c) = none := rfl
      simp only [List.map_cons, h1, nansum_cons_none, ih]
    | some a =>
      have h1 : omul (some a) (some c) = some (a * c) := rfl
      simp only [List.map_cons, h1, nansum_cons_some, ih]
      ring

theorem nansum_eq_zero_of_degenerate {trans : List (Option ℚ)}
    (h : ∀ v ∈ trans, v = none ∨ v = some 0) : nansum trans = 0 := by
  induction trans with
  | nil => rfl
  | cons a l ih =>
    have ha := h a (List.mem_cons_self a l)
    have hl := ih (fun v hv => h v (List.mem_cons_of_mem a hv))
    rcases ha with ha | ha <;> subst ha <;>
      simp [nansum_cons_none, nansum_cons_some, hl]

/-- C1 (amended).  `data_balanced` multiplies the transformed series
entrywise by `sum(original)/sum(transformed)` and so restores the original
total; consequently any method that finishes by balancing its smoothed
series against its input — `moving_average` in particular — preserves the
total volume of its input whenever the smoothed series it passes to the
balancer has non-zero sum. -/
theorem C1_volume_balance :
    (∀ (orig trans : List ℚ), trans.sum ≠ 0 →
      data_balanced (orig.map some) (trans.map some)
        = trans.map (fun v => some (v * (orig.sum / trans.sum)))) ∧
    (∀ (orig trans : List (Option ℚ)), nansum trans ≠ 0 →
      nansum (data_balanced orig trans) = nansum orig) ∧
    (∀ (w : ℕ) (xs : List (Option ℚ)),
      nansum (movingAverageSmoothed w xs) ≠ 0 →
      nansum (movingAverage w xs) = nansum xs) := by
  have hbal : ∀ (orig trans : List (Option ℚ)), nansum trans ≠ 0 →
      nansum (data_balanced orig trans) = nansum orig := by
    intro orig trans h
    unfold data_balanced
    simp only [if_neg h]
    rw [nansum_scale]
    field_simp
  refine ⟨?_, hbal, ?_⟩
  · intro orig trans h
    have h' : nansum (trans.map some) ≠ 0 := by
      rwa [nansum_map_some]
    unfold data_balanced
    simp only [nansum_map_some, if_neg h, List.map_map]
    refine List.map_congr_left (fun v _ => ?_)
    simp [omul, mul_comm]
  · intro w xs h
    exact hbal xs (movingAverageSmoothed w xs) h

/-- Witness for C1 at concrete inputs. -/
theorem C1_volume_balance_witness :
    data_balanced ([(2 : ℚ), 4].map some) ([(1 : ℚ), 2].map some)
      = [(1 : ℚ), 2].map
          (fun v => some (v * (([(2 : ℚ), 4] : List ℚ).sum
            / ([(1 : ℚ), 2] : List ℚ).sum))) ∧
    nansum (movingAverage 1 [some (1 : ℚ), some 2])
      = nansum [some (1 : ℚ), some 2] :=
  ⟨C1_volume_balance.1 [2, 4] [1, 2] (by norm_num),
   C1_volume_balance.2.2 1 [some 1, some 2]
     (by
       simp [movingAverageSmoothed, rollingCenterMean, clamp0, ffill, bfill,
         ffillFrom, nansum, List.filterMap_cons, List.range_succ]
       norm_num)⟩

/-- C1 counterexample: the input `[-1, -1]` has non-zero sum, but
`moving_average` (window 1) clamps it to `[0, 0]`, the balancing scale is a
division by zero, and the output's total is not the input's total — the
claim's consequence fails when only the *input* sum is required non-zero. -/
theorem C1_counterexample :
    nansum [some (-1 : ℚ), some (-1)] ≠ 0 ∧
    nansum (movingAverage 1 [some (-1 : ℚ), some (-1)])
      ≠ nansum [some (-1 : ℚ), some (-1)] := by
  constructor <;>
    [skip;
     simp [movingAverage, movingAverageSmoothed, data_balanced,
       rollingCenterMean, clamp0, ffill, bfill, ffillFrom, omul, nansum,
       List.filterMap_cons, List.range_succ]] <;>
    norm_num [nansum, List.filterMap_cons]

/-- C3 counterexample: with `sum(transformed) == 0` the code raises nothing;
the division by zero propagates and `data_balanced` returns a series whose
entry is undefined (`NaN`), surfacing no error to the caller. -/
theorem C3_counterexample :
    data_balanced [some (1 : ℚ)] [some (0 : ℚ)] = [none] := by
  simp [data_balanced, nansum, List.filterMap_cons, omul]

/-- C3 (amended).  When every defined transformed entry is `0` (the
degenerate case actually reachable after non-negative clamping, with
`sum(transformed) == 0`), `data_balanced` does not fail: it returns a series
that is undefined (`NaN`) at every position. -/
theorem C3_degenerate_balancing (orig trans : List (Option ℚ))
    (h : ∀ v ∈ trans, v = none ∨ v = some 0) :
    data_balanced orig trans = trans.map (fun _ => none) := by
  have hz : nansum trans = 0 := nansum_eq_zero_of_degenerate h
  unfold data_balanced
  simp only [hz, if_pos rfl]
  exact List.map_congr_left (fun v _ => omul_none v)

/-- Witness for C3 at a concrete degenerate input. -/
theorem C3_degenerate_balancing_witness :
    data_balanced [some (1 : ℚ)] [some (0 : ℚ), none]
      = [some (0 : ℚ), none].map (fun _ => none) :=
  C3_degenerate_balancing [some 1] [some 0, none] (by decide)

theorem ocount_eq_zero_iff (win : List (Option ℚ)) :
    ocount win = 0 ↔ win.all (fun v => v.isNone) = true := by
  induction win with
  | nil => simp [ocount]
  | cons a l ih =>
    cases a with
    | none => simp [ocount, List.filterMap_cons, List.all_cons, ih]
    | some a => simp [ocount, List.filterMap_cons, List.all_cons]

/-- `adjust_window` returns `NaN` exactly on the all-missing windows and
the skipna window mean otherwise. -/
theorem adjust_window_eq_spec (win : List (Option ℚ)) :
    adjust_window win = windowMeanSpec win := by
  unfold adjust_window windowMeanSpec nanmean
  by_cases h : ocount win = 0
  · simp [h, (ocount_eq_zero_iff win).mp h]
  · have h2 : ¬ (win.all (fun v => v.isNone) = true) := fun hc =>
      h ((ocount_eq_zero_iff win).mpr hc)
    simp [h, h2]

/-- C7.  For any series of length 10, strided `rolling_mean` with window 4
and stride 2 writes a computed value exactly at the window centers
`{2,4,6,8}` — an all-missing window contributing `NaN`, any other window
its mean — leaves every other position `NaN`, and back-filling from the
original series restores the original value at every non-center
position. -/
theorem C7_strided_rolling_mean
    (a0 a1 a2 a3 a4 a5 a6 a7 a8 a9 r0 r1 r2 r3 r4 r5 r6 r7 r8 r9 :
      Option ℚ) :
    rollingWithStride 4 2 [a0, a1, a2, a3, a4, a5, a6, a7, a8, a9] =
      [none, none, windowMeanSpec [a0, a1, a2, a3], none,
       windowMeanSpec [a2, a3, a4, a5], none,
       windowMeanSpec [a4, a5, a6, a7], none,
       windowMeanSpec [a6, a7, a8, a9], none] ∧
    ((fillnaFrom
        (rollingWithStride 4 2 [a0, a1, a2, a3, a4, a5, a6, a7, a8, a9])
        [r0, r1, r2, r3, r4, r5, r6, r7, r8, r9]).get? 0 = some r0 ∧
      (fillnaFrom
        (rollingWithStride 4 2 [a0, a1, a2, a3, a4, a5, a6, a7, a8, a9])
        [r0, r1, r2, r3, r4, r5, r6, r7, r8, r9]).get? 1 = some r1 ∧
      (fillnaFrom
        (rollingWithStride 4 2 [a0, a1, a2, a3, a4, a5, a6, a7, a8, a9])
        [r0, r1, r2, r3, r4, r5, r6, r7, r8, r9]).get? 3 = some r3 ∧
      (fillnaFrom
        (rollingWithStride 4 2 [a0, a1, a2, a3, a4, a5, a6, a7, a8, a9])
        [r0, r1, r2, r3, r4, r5, r6, r7, r8, r9]).get? 5 = some r5 ∧
      (fillnaFrom
        (rollingWithStride 4 2 [a0, a1, a2, a3, a4, a5, a6, a7, a8, a9])
        [r0, r1, r2, r3, r4, r5, r6, r7, r8, r9]).get? 7 = some r7 ∧
      (fillnaFrom
        (rollingWithStride 4 2 [a0, a1, a2, a3, a4, a5, a6, a7, a8, a9])
        [r0, r1, r2, r3, r4, r5, r6, r7, r8, r9]).get? 9 = some r9) := by
  constructor
  · simp [rollingWithStride, strideStarts, adjust_window_eq_spec,
      List.range_succ, List.replicate]
  · refine ⟨?_, ?_, ?_, ?_, ?_, ?_⟩ <;>
      simp [rollingWithStride, strideStarts, fillnaFrom,
        List.range_succ, List.replicate]

/-- C8 counterexample: on `[10, 20, NaN, 40, 50]` with window 3, the
boundary-filled centered rolling mean is `[20, 20, 30, 40, 40]` (the
boundary `NaN`s are backward/forward *filled*, not computed from partial
windows), not `[15, 20, 30, 40, 45]` as the claim states. -/
theorem C8_counterexample :
    movingAverageSmoothed 3
        (interpolateFill0 [some (10 : ℚ), some 20, none, some 40, some 50])
      ≠ [some (15 : ℚ), some 20, some 30, some 40, some 45] := by
  simp [movingAverageSmoothed, rollingCenterMean, clamp0, ffill, bfill,
    ffillFrom, interpolateFill0, interpPos, firstSomeIdx, nansum,
    List.filterMap_cons, List.range_succ]
  norm_num

/-- C8 (amended).  Input `[10, 20, NaN, 40, 50]` through the pipeline with
the single method `moving_average`, window 3: interpolation yields
`[10, 20, 30, 40, 50]`; the boundary-filled centered rolling mean is
`[20, 20, 30, 40, 40]`; volume balancing rescales it to total 150; the
final output restores `NaN` at index 2 only. -/
theorem C8_pipeline_example :
    interpolateFill0 [some (10 : ℚ), some 20, none, some 40, some 50]
      = [some (10 : ℚ), some 20, some 30, some 40, some 50] ∧
    movingAverageSmoothed 3
        (interpolateFill0 [some (10 : ℚ), some 20, none, some 40, some 50])
      = [some (20 : ℚ), some 20, some 30, some 40, some 40] ∧
    nansum (movingAverage 3
        (interpolateFill0 [some (10 : ℚ), some 20, none, some 40, some 50]))
      = 150 ∧
    anomaly_process 3 1 [some (10 : ℚ), some 20, none, some 40, some 50]
        [Method.moving_average]
      = [some (20 : ℚ), some 20, none, some 40, some 40] := by
  refine ⟨?_, ?_, ?_, ?_⟩ <;>
    simp [anomaly_process, chainResult, applyMethod, applyMask,
      movingAverage, movingAverageSmoothed, data_balanced,
      rollingCenterMean, clamp0, ffill, bfill, ffillFrom, interpolateFill0,
      interpPos, firstSomeIdx, omul, nansum, List.filterMap_cons,
      List.range_succ] <;>
    norm_num

theorem ffillFrom_length (acc : Option ℚ) (xs : List (Option ℚ)) :
    (ffillFrom acc xs).length = xs.length := by
  induction xs generalizing acc with
  | nil => rfl
  | cons a l ih => cases a <;> simp [ffillFrom, ih]

theorem ffill_length (xs : List (Option ℚ)) : (ffill xs).length = xs.length := by
  simp [ffill, ffillFrom_length]

theorem bfill_length (xs : List (Option ℚ)) : (bfill xs).length = xs.length := by
  simp [bfill, ffill_length]

theorem rollingCenterMean_length (w : ℕ) (xs : List (Option ℚ)) :
    (rollingCenterMean w xs).length = xs.length := by
  simp [rollingCenterMean]

theorem clamp0_length (xs : List (Option ℚ)) : (clamp0 xs).length = xs.length := by
  simp [clamp0]

theorem data_balanced_length (orig trans : List (Option ℚ)) :
    (data_balanced orig trans).length = trans.length := by
  simp [data_balanced]

theorem movingAverageSmoothed_length (w : ℕ) (xs : List (Option ℚ)) :
    (movingAverageSmoothed w xs).length = xs.length := by
  simp [movingAverageSmoothed, clamp0_length, ffill_length, bfill_length,
    rollingCenterMean_length]

theorem movingAverage_length (w : ℕ) (xs : List (Option ℚ)) :
    (movingAverage w xs).length = xs.length := by
  simp [movingAverage, data_balanced_length, movingAverageSmoothed_length]

theorem foldl_set_length (g : ℕ → ℕ) (f : ℕ → Option ℚ) (starts : List ℕ) :
    ∀ acc : List (Option ℚ),
      (starts.foldl (fun a i => a.set (g i) (f i)) acc).length = acc.length := by
  induction starts with
  | nil => intro acc; rfl
  | cons i rest ih =>
    intro acc
    simp only [List.foldl_cons]
    rw [ih (acc.set (g i) (f i)), List.length_set]

theorem rollingWithStride_length (w s : ℕ) (xs : List (Option ℚ)) :
    (rollingWithStride w s xs).length = xs.length := by
  unfold rollingWithStride
  rw [foldl_set_length (fun i => i + w / 2)
    (fun i => adjust_window ((xs.drop i).take w)), List.length_replicate]

theorem interpolateFill0_length (xs : List (Option ℚ)) :
    (interpolateFill0 xs).length = xs.length := by
  simp [interpolateFill0]

theorem fillnaFrom_length (cur src : List (Option ℚ)) :
    (fillnaFrom cur src).length = min cur.length src.length := by
  simp [fillnaFrom]

theorem applyMethod_length (w s : ℕ) (raw cur : List (Option ℚ)) (m : Method)
    (h : cur.length = raw.length) :
    (applyMethod w s raw cur m).length = raw.length := by
  cases m with
  | moving_average => rw [applyMethod, movingAverage_length, h]
  | rolling_mean =>
    simp [applyMethod, fillnaFrom_length, rollingWithStride_length, h]
  | unknown n => exact h

theorem chainResult_length (w s : ℕ) (raw : List (Option ℚ))
    (methods : List Method) :
    (chainResult w s raw methods).length = raw.length := by
  unfold chainResult
  suffices h : ∀ (ms : List Method) (cur : List (Option ℚ)),
      cur.length = raw.length →
      (ms.foldl (fun cur m => applyMethod w s raw cur m) cur).length
        = raw.length by
    exact h methods _ (interpolateFill0_length raw)
  intro ms
  induction ms with
  | nil => intro cur h; exact h
  | cons m rest ih =>
    intro cur h
    exact ih _ (applyMethod_length w s raw cur m h)

theorem interpolateFill0_total (xs : List (Option ℚ)) :
    ∀ v ∈ interpolateFill0 xs, v.isSome := by
  intro v hv
  rcases List.mem_map.mp hv with ⟨k, _, rfl⟩
  rfl

theorem ffillFrom_get?_isSome (xs : List (Option ℚ)) :
    ∀ (acc : Option ℚ) (i : ℕ), i < xs.length →
      (acc.isSome = true ∨ ∃ j, j ≤ i ∧ ∃ v : ℚ, xs.get? j = some (some v)) →
      ∃ u : ℚ, (ffillFrom acc xs).get? i = some (some u) := by
  induction xs with
  | nil => intro acc i hi _; simp at hi
  | cons a l ih =>
    intro acc i hi h
    cases i with
    | zero =>
      cases a with
      | some v => exact ⟨v, rfl⟩
      | none =>
        rcases h with h | ⟨j, hj, v, hv⟩
        · rcases Option.isSome_iff_exists.mp h with ⟨u, rfl⟩
          exact ⟨u, rfl⟩
        · interval_cases j
          simp [List.get?] at hv
    | succ i =>
      have hi' : i < l.length := by simpa using Nat.lt_of_succ_lt_succ hi
      cases a with
      | some v =>
        have := ih (some v) i hi' (Or.inl rfl)
        simpa [ffillFrom] using this
      | none =>
        have hnext : acc.isSome = true
            ∨ ∃ j, j ≤ i ∧ ∃ v : ℚ, l.get? j = some (some v) := by
          rcases h with h | ⟨j, hj, v, hv⟩
          · exact Or.inl h
          · cases j with
            | zero => simp [List.get?] at hv
            | succ j =>
              exact Or.inr ⟨j, Nat.le_of_succ_le_succ hj, v, by
                simpa [List.get?] using hv⟩
        have := ih acc i hi' hnext
        simpa [ffillFrom] using this

theorem ffill_get?_isSome (xs : List (Option ℚ)) (i : ℕ) (hi : i < xs.length)
    (h : ∃ j, j ≤ i ∧ ∃ v : ℚ, xs.get? j = some (some v)) :
    ∃ u : ℚ, (ffill xs).get? i = some (some u) :=
  ffillFrom_get?_isSome xs none i hi (Or.inr h)

theorem bfill_get?_isSome (xs : List (Option ℚ)) (j j0 : ℕ) (v : ℚ)
    (hj : j ≤ j0) (hj0 : xs.get? j0 = some (some v)) :
    ∃ u : ℚ, (bfill xs).get? j = some (some u) := by
  have hj0n : j0 < xs.length := List.get?_eq_some.mp hj0 |>.1
  have hjn : j < xs.length := lt_of_le_of_lt hj hj0n
  have hFlen : (ffill xs.reverse).length = xs.length := by
    simp [ffill_length]
  unfold bfill
  rw [List.get?_reverse (by rw [hFlen]; exact hjn)]
  rw [hFlen]
  apply ffill_get?_isSome
  · rw [List.length_reverse]; omega
  · refine ⟨xs.length - 1 - j0, by omega, v, ?_⟩
    rw [List.get?_reverse (by omega)]
    have : xs.length - 1 - (xs.length - 1 - j0) = j0 := by omega
    rw [this]
    exact hj0

theorem ffill_bfill_total (xs : List (Option ℚ))
    (h : ∃ j0, ∃ v : ℚ, xs.get? j0 = some (some v)) :
    ∀ u ∈ ffill (bfill xs), u.isSome := by
  rcases h with ⟨j0, v, hj0⟩
  intro u hu
  rcases List.mem_iff_get?.mp hu with ⟨i, hi⟩
  have hin : i < xs.length := by
    have := List.get?_eq_some.mp hi |>.1
    rwa [ffill_length, bfill_length] at this
  rcases bfill_get?_isSome xs (min i j0) j0 v (min_le_right i j0) hj0 with ⟨w, hw⟩
  rcases ffill_get?_isSome (bfill xs) i (by rwa [bfill_length])
      ⟨min i j0, min_le_left i j0, w, hw⟩ with ⟨u', hu'⟩
  rw [hi] at hu'
  simp only [Option.some.injEq] at hu'
  rw [hu']
  rfl

theorem rollingCenterMean_exists (w : ℕ) (xs : List (Option ℚ))
    (hw1 : 1 ≤ w) (hwn : w ≤ xs.length) (hall : ∀ v ∈ xs, v.isSome) :
    ∃ j, ∃ v : ℚ, (rollingCenterMean w xs).get? j = some (some v) := by
  refine ⟨(w - 1) / 2, nansum ((xs.drop 0).take w) / (w : ℚ), ?_⟩
  have hj : (w - 1) / 2 < xs.length := by omega
  unfold rollingCenterMean
  rw [List.get?_eq_getElem?, List.getElem?_map, List.getElem?_range hj]
  have hc : (w - 1) / 2 ≤ (w - 1) / 2 ∧ (w - 1) / 2 + w / 2 < xs.length := by
    omega
  have hz : (w - 1) / 2 - (w - 1) / 2 = 0 := by omega
  simp only [Option.map_some', hz, if_pos hc]
  have hwin : ((xs.drop 0).take w).all (fun v => v.isSome) = true := by
    rw [List.all_eq_true]
    intro v hv
    exact hall v (List.mem_of_mem_take (by simpa using hv))
  rw [if_pos hwin]

theorem clamp0_total (xs : List (Option ℚ)) (h : ∀ v ∈ xs, v.isSome) :
    ∀ u ∈ clamp0 xs, u.isSome := by
  intro u hu
  rcases List.mem_map.mp hu with ⟨v, hv, rfl⟩
  rcases Option.isSome_iff_exists.mp (h v hv) with ⟨a, rfl⟩
  rfl

theorem movingAverageSmoothed_total (w : ℕ) (xs : List (Option ℚ))
    (hw1 : 1 ≤ w) (hwn : w ≤ xs.length) (hall : ∀ v ∈ xs, v.isSome) :
    ∀ u ∈ movingAverageSmoothed w xs, u.isSome := by
  unfold movingAverageSmoothed
  exact clamp0_total _
    (ffill_bfill_total _ (rollingCenterMean_exists w xs hw1 hwn hall))

theorem data_balanced_total (orig trans : List (Option ℚ))
    (htrans : ∀ v ∈ trans, v.isSome) (hsum : nansum trans ≠ 0) :
    ∀ u ∈ data_balanced orig trans, u.isSome := by
  intro u hu
  unfold data_balanced at hu
  simp only [if_neg hsum] at hu
  rcases List.mem_map.mp hu with ⟨v, hv, rfl⟩
  rcases Option.isSome_iff_exists.mp (htrans v hv) with ⟨a, rfl⟩
  rfl

theorem movingAverage_total (w : ℕ) (xs : List (Option ℚ))
    (hw1 : 1 ≤ w) (hwn : w ≤ xs.length) (hall : ∀ v ∈ xs, v.isSome)
    (hsum : nansum (movingAverageSmoothed w xs) ≠ 0) :
    ∀ u ∈ movingAverage w xs, u.isSome :=
  data_balanced_total xs (movingAverageSmoothed w xs)
    (movingAverageSmoothed_total w xs hw1 hwn hall) hsum

theorem applyMask_get?_none (raw ys : List (Option ℚ)) (i : ℕ)
    (hy : raw.length ≤ ys.length) (h : raw.get? i = some none) :
    (applyMask raw ys).get? i = some none := by
  have hi : i < raw.length := List.get?_eq_some.mp h |>.1
  have hiy : i < ys.length := lt_of_lt_of_le hi hy
  have hys : ∃ y, ys.get? i = some y := ⟨ys.get ⟨i, hiy⟩, List.get?_eq_get hiy⟩
  rcases hys with ⟨y, hysy⟩
  unfold applyMask
  rw [List.get?_zipWith_eq_some]
  exact ⟨none, y, h, hysy, rfl⟩

theorem applyMask_get?_some (raw ys : List (Option ℚ)) (i : ℕ)
    (hall : ∀ v ∈ ys, v.isSome)
    (h : (applyMask raw ys).get? i = some none) :
    raw.get? i = some none := by
  unfold applyMask at h
  rw [List.get?_zipWith_eq_some] at h
  rcases h with ⟨x, y, hx, hy, hf⟩
  cases x with
  | none => exact hx
  | some a =>
    exfalso
    have hs : y.isSome := hall y (List.get?_mem hy)
    have hf' : y = none := hf
    rw [hf'] at hs
    simp at hs

/-- C2 (amended).  After the pipeline, positions missing in the raw INQ
input are always missing in the output; and no other position is missing
provided the chained methods' pre-masking result has no missing values —
in particular, for a `moving_average` chain with `1 ≤ window ≤ n` whose
smoothed series has non-zero sum, the output is missing exactly at the
raw input's missing positions.  (Degenerate inputs break the unrestricted
claim: an all-zero series makes volume balancing divide by zero and the
whole output missing.) -/
theorem C2_mask_preservation :
    (∀ (w s : ℕ) (raw : List (Option ℚ)) (methods : List Method) (i : ℕ),
      raw.get? i = some none →
      (anomaly_process w s raw methods).get? i = some none) ∧
    (∀ (w s : ℕ) (raw : List (Option ℚ)) (methods : List Method) (i : ℕ),
      (∀ v ∈ chainResult w s raw methods, v.isSome) →
      (anomaly_process w s raw methods).get? i = some none →
      raw.get? i = some none) ∧
    (∀ (w s : ℕ) (raw : List (Option ℚ)), 1 ≤ w → w ≤ raw.length →
      nansum (movingAverageSmoothed w (interpolateFill0 raw)) ≠ 0 →
      ∀ i, ((anomaly_process w s raw [Method.moving_average]).get? i
          = some none ↔ raw.get? i = some none)) := by
  refine ⟨?_, ?_, ?_⟩
  · intro w s raw methods i h
    exact applyMask_get?_none raw _ i
      (le_of_eq (chainResult_length w s raw methods).symm) h
  · intro w s raw methods i hall h
    exact applyMask_get?_some raw _ i hall h
  · intro w s raw hw1 hwn hsum i
    have hchain : chainResult w s raw [Method.moving_average]
        = movingAverage w (interpolateFill0 raw) := rfl
    constructor
    · intro h
      refine applyMask_get?_some raw _ i ?_ h
      rw [hchain]
      exact movingAverage_total w (interpolateFill0 raw) hw1
        (by rw [interpolateFill0_length]; exact hwn)
        (interpolateFill0_total raw) hsum
    · intro h
      exact applyMask_get?_none raw _ i
        (le_of_eq (chainResult_length w s raw [Method.moving_average]).symm) h

/-- Witness for C2 at a concrete input with one missing value. -/
theorem C2_mask_preservation_witness :
    ((anomaly_process 3 1 [some (1 : ℚ), none, some 3]
        [Method.moving_average]).get? 1 = some none
      ↔ [some (1 : ℚ), none, some 3].get? 1 = some none) :=
  C2_mask_preservation.2.2 3 1 [some 1, none, some 3] (by norm_num)
    (by norm_num)
    (by
      simp [movingAverageSmoothed, rollingCenterMean, clamp0, ffill, bfill,
        ffillFrom, interpolateFill0, interpPos, firstSomeIdx, nansum,
        List.filterMap_cons, List.range_succ]
      norm_num) 1

/-- C2 counterexample: the all-zero raw series (no missing values) with the
single method `moving_average`, window 3: the smoothed series sums to zero,
volume balancing divides by zero, and the final output is missing at
position 0 even though the raw input was present there. -/
theorem C2_counterexample :
    (anomaly_process 3 1 [some (0 : ℚ), some 0, some 0]
        [Method.moving_average]).get? 0 = some none ∧
    [some (0 : ℚ), some 0, some 0].get? 0 = some (some 0) := by
  constructor
  · simp [anomaly_process, chainResult, applyMethod, applyMask,
      movingAverage, movingAverageSmoothed, data_balanced,
      rollingCenterMean, clamp0, ffill, bfill, ffillFrom, interpolateFill0,
      interpPos, firstSomeIdx, omul, nansum, List.filterMap_cons,
      List.range_succ]
  · rfl

theorem amaGo_length (θ : ℚ) (wmin wmax decay : ℕ)
    (rows : List (ℕ × Option ℚ)) (t0 tlast n : ℕ) :
    ∀ (rest : List (ℕ × Option ℚ)) (i cw : ℕ),
      (amaGo θ wmin wmax decay rows t0 tlast n i cw rest).length
        = rest.length := by
  intro rest
  induction rest with
  | nil => intro i cw; rfl
  | cons r rest ih =>
    intro i cw
    cases r with
    | mk t v => simp [amaGo, ih]

theorem adaptive_moving_average_length (θ : ℚ) (a b c d : ℕ)
    (rows : List (ℕ × Option ℚ)) :
    (adaptive_moving_average θ a b c d rows).length = rows.length := by
  unfold adaptive_moving_average
  rw [amaGo_length]

theorem anomaly_process_length (w s : ℕ) (raw : List (Option ℚ))
    (ms : List Method) :
    (anomaly_process w s raw ms).length = raw.length := by
  unfold anomaly_process applyMask
  rw [List.length_zipWith, chainResult_length, min_self]

theorem EMA_length (monthOf : ℕ → ℕ) (ts : List ℕ)
    (vals : List (Option ℚ)) :
    (EMA monthOf ts vals).length
      = (dedupKeepLast (ts.zip vals)).length := by
  unfold EMA
  rw [data_balanced_length, List.length_map, List.length_zip,
    List.length_zip, adaptive_moving_average_length,
    adaptive_moving_average_length, min_self, min_self]

theorem dedupKeepLast_eq_self (rows : List (ℕ × Option ℚ))
    (h : (rows.map Prod.fst).Nodup) : dedupKeepLast rows = rows := by
  induction rows with
  | nil => rfl
  | cons r rest ih =>
    rw [List.map_cons, List.nodup_cons] at h
    have hc : ((rest.map Prod.fst).contains r.1) = false := by
      rw [List.contains, List.elem_eq_mem]
      exact decide_eq_false h.1
    unfold dedupKeepLast
    rw [hc]
    simp only [Bool.false_eq_true, if_false]
    rw [ih h.2]

/-- C4 counterexample: with a duplicated timestamp, `EMA` deduplicates the
index (keep last), so its output is strictly shorter than its input — the
length-preservation claim fails for `EMA`. -/
theorem C4_counterexample :
    (EMA (fun _ => 1) [0, 0] [some (1 : ℚ), some 1]).length
      ≠ ([some (1 : ℚ), some 1] : List (Option ℚ)).length := by
  rw [EMA_length]
  decide

/-- C4 (amended).  Every modelled transform — `moving_average`, strided
`rolling_mean`, the adaptive moving average, and the whole pipeline —
returns a series of its input's length; `EMA` does so provided the
timestamp index is duplicate-free (it first deduplicates timestamps,
keeping the last occurrence, so with duplicates its output is strictly
shorter). -/
theorem C4_length_preservation :
    (∀ (w : ℕ) (xs : List (Option ℚ)),
      (movingAverage w xs).length = xs.length) ∧
    (∀ (w s : ℕ) (xs : List (Option ℚ)),
      (rollingWithStride w s xs).length = xs.length) ∧
    (∀ (θ : ℚ) (a b c d : ℕ) (rows : List (ℕ × Option ℚ)),
      (adaptive_moving_average θ a b c d rows).length = rows.length) ∧
    (∀ (w s : ℕ) (raw : List (Option ℚ)) (ms : List Method),
      (anomaly_process w s raw ms).length = raw.length) ∧
    (∀ (monthOf : ℕ → ℕ) (ts : List ℕ) (vals : List (Option ℚ)),
      ts.length = vals.length → ts.Nodup →
      (EMA monthOf ts vals).length = vals.length) := by
  refine ⟨movingAverage_length, rollingWithStride_length,
    adaptive_moving_average_length, anomaly_process_length, ?_⟩
  intro monthOf ts vals hlen hnodup
  rw [EMA_length, dedupKeepLast_eq_self, List.length_zip, hlen, min_self]
  rw [List.map_fst_zip]
  · exact hnodup
  · omega

/-- Witness for C4's EMA clause at a duplicate-free index. -/
theorem C4_length_preservation_witness :
    (EMA (fun _ => 1) [0, 1] [some (1 : ℚ), some 2]).length
      = ([some (1 : ℚ), some 2] : List (Option ℚ)).length :=
  C4_length_preservation.2.2.2.2 (fun _ => 1) [0, 1]
    [some (1 : ℚ), some 2] rfl (by decide)

theorem hourlyRows_length (t0 : ℕ) (vs : List (Option ℚ)) :
    (hourlyRows t0 vs).length = vs.length := by
  induction vs generalizing t0 with
  | nil => rfl
  | cons v vs ih => simp [hourlyRows, ih]

theorem hourlyRows_fst_ge (t0 : ℕ) (vs : List (Option ℚ)) :
    ∀ p ∈ hourlyRows t0 vs, t0 ≤ p.1 := by
  induction vs generalizing t0 with
  | nil => intro p hp; simp [hourlyRows] at hp
  | cons v vs ih =>
    intro p hp
    rw [hourlyRows, List.mem_cons] at hp
    rcases hp with rfl | hp
    · exact le_refl t0
    · exact le_trans (Nat.le_succ t0) (ih (t0 + 1) p hp)

theorem hourlyRows_getLast_fst (t0 : ℕ) (v : Option ℚ)
    (vs : List (Option ℚ)) :
    (((hourlyRows t0 (v :: vs)).getLast?).map Prod.fst).getD 0
      = t0 + vs.length := by
  induction vs generalizing t0 v with
  | nil => rfl
  | cons w ws ih =>
    rw [hourlyRows, hourlyRows, List.getLast?_cons_cons]
    have := ih (t0 + 1) w
    rw [hourlyRows] at this
    rw [this, List.length_cons]
    omega

/-- A timestamp-band filter over an hourly-regular series is a positional
slice. -/
theorem filter_hourly_band (vals : List (Option ℚ)) :
    ∀ (t0 lo hi : ℕ),
      ((hourlyRows t0 vals).filter
          (fun p => decide (t0 + lo ≤ p.1 ∧ p.1 ≤ t0 + hi))).map Prod.snd
        = (vals.drop lo).take (hi + 1 - lo) := by
  induction vals with
  | nil => intro t0 lo hi; simp [hourlyRows]
  | cons v vs ih =>
    intro t0 lo hi
    rw [hourlyRows, List.filter_cons]
    rcases Nat.eq_zero_or_pos lo with hlo | hlo
    · subst hlo
      have hcond : (decide (t0 + 0 ≤ (t0, v).1 ∧ (t0, v).1 ≤ t0 + hi))
          = true := by
        simp
      rw [hcond]
      simp only [if_true, List.map_cons, List.drop_zero]
      rcases Nat.eq_zero_or_pos hi with hhi | hhi
      · subst hhi
        have hnil : (hourlyRows (t0 + 1) vs).filter
            (fun p => decide (t0 + 0 ≤ p.1 ∧ p.1 ≤ t0 + 0)) = [] := by
          rw [List.filter_eq_nil_iff]
          intro p hp
          have := hourlyRows_fst_ge (t0 + 1) vs p hp
          simp only [decide_eq_true_eq, not_and, not_le]
          intro _
          omega
        rw [hnil]
        simp
      · have hsw : (hourlyRows (t0 + 1) vs).filter
              (fun p => decide (t0 + 0 ≤ p.1 ∧ p.1 ≤ t0 + hi))
            = (hourlyRows (t0 + 1) vs).filter
              (fun p => decide ((t0 + 1) + 0 ≤ p.1
                ∧ p.1 ≤ (t0 + 1) + (hi - 1))) := by
          refine List.filter_congr ?_
          intro p hp
          have := hourlyRows_fst_ge (t0 + 1) vs p hp
          simp only [decide_eq_decide]
          omega
        rw [hsw, ih (t0 + 1) 0 (hi - 1)]
        have h1 : hi - 1 + 1 - 0 = hi := by omega
        have h2 : hi + 1 - 0 = hi + 1 := by omega
        rw [h1, h2, List.drop_zero, List.take_succ_cons]
    · have hcond : (decide (t0 + lo ≤ (t0, v).1 ∧ (t0, v).1 ≤ t0 + hi))
          = false := by
        simp only [decide_eq_false_iff_not, not_and, not_le]
        intro h
        omega
      rw [hcond]
      simp only [Bool.false_eq_true, if_false]
      have hdrop : (v :: vs).drop lo = vs.drop (lo - 1) := by
        rcases Nat.exists_eq_add_of_le hlo with ⟨m, rfl⟩
        have h1m : 1 + m = m + 1 := by omega
        rw [h1m, List.drop_succ_cons, Nat.add_sub_cancel]
      rcases Nat.eq_zero_or_pos hi with hhi | hhi
      · subst hhi
        have hnil : (hourlyRows (t0 + 1) vs).filter
            (fun p => decide (t0 + lo ≤ p.1 ∧ p.1 ≤ t0 + 0)) = [] := by
          rw [List.filter_eq_nil_iff]
          intro p hp
          have := hourlyRows_fst_ge (t0 + 1) vs p hp
          simp only [decide_eq_true_eq, not_and, not_le]
          intro _
          omega
        rw [hnil, hdrop]
        have : 0 + 1 - lo = 0 := by omega
        rw [this]
        simp
      · have hsw : (hourlyRows (t0 + 1) vs).filter
              (fun p => decide (t0 + lo ≤ p.1 ∧ p.1 ≤ t0 + hi))
            = (hourlyRows (t0 + 1) vs).filter
              (fun p => decide ((t0 + 1) + (lo - 1) ≤ p.1
                ∧ p.1 ≤ (t0 + 1) + (hi - 1))) := by
          refine List.filter_congr ?_
          intro p _
          simp only [decide_eq_decide]
          omega
        rw [hsw, ih (t0 + 1) (lo - 1) (hi - 1), hdrop]
        have : hi - 1 + 1 - (lo - 1) = hi + 1 - lo := by omega
        rw [this]

/-- The adaptive-moving-average loop over an hourly-regular series,
characterized positionally: starting at position `k` with width state
`cw`, the output at position `i` averages the positions within the
half-window around `i`, clipped to the boundaries, where the width is the
fold of the update rule over the values from `k` through `i`. -/
theorem amaGo_hourly (θ : ℚ) (wmin wmax decay t0 : ℕ)
    (vals : List (Option ℚ)) :
    ∀ (rest : List (Option ℚ)) (k cw : ℕ),
      vals.drop k = rest →
      amaGo θ wmin wmax decay (hourlyRows t0 vals) t0
          (t0 + (vals.length - 1)) vals.length k cw (hourlyRows (t0 + k) rest)
        = (List.range' k rest.length).map (fun i =>
            let w := ((vals.drop k).take (i + 1 - k)).foldl
              (amaStep θ wmin wmax decay) cw
            let half := w / 2
            nanmean ((vals.drop (i - half)).take
              (min (i + half) (vals.length - 1) + 1 - (i - half)))) := by
  intro rest
  induction rest with
  | nil => intro k cw _; simp [hourlyRows, amaGo]
  | cons v rest' ih =>
    intro k cw hdrop
    have hk : k < vals.length := by
      by_contra h
      push_neg at h
      have := List.drop_eq_nil_of_le h
      rw [hdrop] at this
      simp at this
    have hrest : vals.drop (k + 1) = rest' := by
      have h1 : vals.drop (k + 1) = (vals.drop k).drop 1 := by
        rw [List.drop_drop]
      rw [h1, hdrop, List.drop_one, List.tail_cons]
    rw [hourlyRows]
    rw [amaGo]
    have hstart : (if k < amaStep θ wmin wmax decay cw v / 2 then t0
        else t0 + k - amaStep θ wmin wmax decay cw v / 2)
          = t0 + (k - amaStep θ wmin wmax decay cw v / 2) := by
      split_ifs <;> omega
    have hstop : (if vals.length ≤ k + amaStep θ wmin wmax decay cw v / 2
          then t0 + (vals.length - 1)
          else t0 + k + amaStep θ wmin wmax decay cw v / 2)
        = t0 + min (k + amaStep θ wmin wmax decay cw v / 2)
            (vals.length - 1) := by
      split_ifs <;> omega
    simp only [hstart, hstop, filter_hourly_band]
    have hlen : (v :: rest').length = rest'.length + 1 := rfl
    rw [hlen, List.range'_succ, List.map_cons]
    have hhead : ((vals.drop k).take (k + 1 - k)).foldl
        (amaStep θ wmin wmax decay) cw = amaStep θ wmin wmax decay cw v := by
      have h1 : k + 1 - k = 1 := by omega
      rw [h1, hdrop]
      rfl
    have htail : amaGo θ wmin wmax decay (hourlyRows t0 vals) t0
        (t0 + (vals.length - 1)) vals.length (k + 1)
        (amaStep θ wmin wmax decay cw v) (hourlyRows (t0 + k + 1) rest')
        = (List.range' (k + 1) rest'.length).map (fun i =>
            let w := ((vals.drop (k + 1)).take (i + 1 - (k + 1))).foldl
              (amaStep θ wmin wmax decay) (amaStep θ wmin wmax decay cw v)
            let half := w / 2
            nanmean ((vals.drop (i - half)).take
              (min (i + half) (vals.length - 1) + 1 - (i - half)))) := by
      have hassoc : t0 + k + 1 = t0 + (k + 1) := by omega
      rw [hassoc]
      exact ih (k + 1) (amaStep θ wmin wmax decay cw v) hrest
    rw [htail]
    congr 1
    · simp only [hhead]
    · refine List.map_congr_left ?_
      intro i hi
      have hik : k + 1 ≤ i := by
        rcases List.mem_range'.mp hi with ⟨j, _, rfl⟩
        omega
      have hfold : ((vals.drop k).take (i + 1 - k)).foldl
          (amaStep θ wmin wmax decay) cw
            = ((vals.drop (k + 1)).take (i + 1 - (k + 1))).foldl
              (amaStep θ wmin wmax decay) (amaStep θ wmin wmax decay cw v) := by
        have h1 : i + 1 - k = (i - k) + 1 := by omega
        rw [hdrop, hrest, h1, List.take_succ_cons, List.foldl_cons]
        have h2 : i - k = i + 1 - (k + 1) := by omega
        rw [h2]
      simp only [hfold]

/-- `adaptive_moving_average` on an hourly-regular series equals the
positional description with the `>=` width-update rule. -/
theorem adaptiveMA_hourly_eq (θ : ℚ) (winit wmin wmax decay t0 : ℕ)
    (vals : List (Option ℚ)) :
    adaptive_moving_average θ winit wmin wmax decay (hourlyRows t0 vals)
      = amaSpecWith (amaStep θ wmin wmax decay) winit vals := by
  cases vals with
  | nil => rfl
  | cons v vs =>
    unfold adaptive_moving_average amaSpecWith
    have hhd : (((hourlyRows t0 (v :: vs)).head?).map Prod.fst).getD 0
        = t0 := rfl
    have hlast : (((hourlyRows t0 (v :: vs)).getLast?).map Prod.fst).getD 0
        = t0 + ((v :: vs).length - 1) := by
      rw [hourlyRows_getLast_fst]
      rfl
    have hlen : (hourlyRows t0 (v :: vs)).length = (v :: vs).length :=
      hourlyRows_length t0 (v :: vs)
    rw [hhd, hlast, hlen]
    have key := amaGo_hourly θ wmin wmax decay t0 (v :: vs) (v :: vs) 0
      winit (List.drop_zero _)
    rw [Nat.add_zero] at key
    rw [key, List.range_eq_range']
    refine List.map_congr_left ?_
    intro i _
    simp only [List.drop_zero, Nat.sub_zero]

theorem amaSpecWith_get0 (step : ℕ → Option ℚ → ℕ) (winit : ℕ)
    (v0 v1 v2 : Option ℚ) :
    (amaSpecWith step winit [v0, v1, v2]).get? 0
      = some (nanmean (([v0, v1, v2].drop (0 - step winit v0 / 2)).take
          (min (0 + step winit v0 / 2) 2 + 1 - (0 - step winit v0 / 2)))) := by
  unfold amaSpecWith
  rw [List.get?_eq_getElem?, List.getElem?_map]
  norm_num

/-- C5 (amended).  On an hourly-regular series, for every timestamp
processed left to right: if the current value is at least (`>=`) the
threshold, the window width is floor-halved (not below `min_window`),
otherwise doubled (not above `max_window`); the output at that timestamp
is the mean of the values within half the current window on each side,
clipped to the series boundaries.  (The claim's strict "exceeds" is wrong:
a value exactly at the threshold also halves the window.) -/
theorem C5_adaptive_window (θ : ℚ) (winit wmin wmax decay t0 : ℕ)
    (vals : List (Option ℚ)) :
    adaptive_moving_average θ winit wmin wmax decay (hourlyRows t0 vals)
      = amaSpecWith (amaStep θ wmin wmax decay) winit vals :=
  adaptiveMA_hourly_eq θ winit wmin wmax decay t0 vals

/-- C5 counterexample: with threshold 10, initial window 4, floor 1,
ceiling 8, decay 2, on the hourly values `[10, 0, 100]`, the first value
equals the threshold: the code halves the window (output `mean(10,0) = 5`
at position 0), whereas the claim's strict "exceeds" reading doubles it
(output `mean(10,0,100) = 110/3`). -/
theorem C5_counterexample :
    adaptive_moving_average 10 4 1 8 2
        (hourlyRows 0 [some (10 : ℚ), some 0, some 100])
      ≠ amaSpecWith (amaStepStrict 10 1 8 2) 4
        [some (10 : ℚ), some 0, some 100] := by
  rw [adaptiveMA_hourly_eq]
  intro h
  have h0 : (amaSpecWith (amaStep 10 1 8 2) 4
        [some (10 : ℚ), some 0, some 100]).get? 0
      = (amaSpecWith (amaStepStrict 10 1 8 2) 4
        [some (10 : ℚ), some 0, some 100]).get? 0 := by
    rw [h]
  rw [amaSpecWith_get0, amaSpecWith_get0] at h0
  have hge : amaStep 10 1 8 2 4 (some (10 : ℚ)) = 2 := by
    rw [amaStep]
    have hc : optGe (some (10 : ℚ)) 10 = true := by simp [optGe]
    rw [hc]
    norm_num
  have hgt : amaStepStrict 10 1 8 2 4 (some (10 : ℚ)) = 8 := by
    rw [amaStepStrict]
    have hc : optGt (some (10 : ℚ)) 10 = false := by simp [optGt]
    rw [hc]
    norm_num
  rw [hge, hgt] at h0
  norm_num [nanmean, nansum, ocount, List.filterMap_cons] at h0

theorem gapList_get_first (g : ℕ) (a b : ℚ) :
    ([some a] ++ List.replicate g none ++ [some b]).get? 0 = some (some a) := by
  rw [List.singleton_append]
  rfl

theorem gapList_get_mid (g : ℕ) (a b : ℚ) :
    ∀ i, 1 ≤ i → i < g + 1 →
      ([some a] ++ List.replicate g none ++ [some b]).get? i = some none := by
  intro i h1 h2
  rw [List.get?_eq_getElem?]
  rw [List.getElem?_append_left (by
    rw [List.length_append, List.length_replicate]
    simp only [List.length_cons, List.length_nil]
    omega)]
  cases i with
  | zero => omega
  | succ j =>
    rw [List.singleton_append, List.getElem?_cons_succ,
      List.getElem?_replicate_of_lt (by omega)]

theorem gapList_get_last (g : ℕ) (a b : ℚ) :
    ([some a] ++ List.replicate g none ++ [some b]).get? (g + 1)
      = some (some b) := by
  rw [List.get?_eq_getElem?]
  rw [List.getElem?_append_right (by
    rw [List.length_append, List.length_replicate]
    simp only [List.length_cons, List.length_nil]
    omega)]
  rw [List.length_append, List.length_replicate]
  simp only [List.length_cons, List.length_nil]
  rw [show g + 1 - (1 + g) = 0 from by omega]
  rfl

theorem gapList_length (g : ℕ) (a b : ℚ) :
    ([some a] ++ List.replicate g none ++ [some b]).length = g + 2 := by
  simp only [List.length_append, List.length_replicate, List.length_cons,
    List.length_nil]
  omega

theorem foldl_liStep_skip (θ : ℕ) (data : List (Option ℚ)) (st : Option ℕ) :
    ∀ l : List ℕ, (∀ i ∈ l, data.get? i = some none) →
      l.foldl (liStep θ) (data, st) = (data, st) := by
  intro l
  induction l with
  | nil => intro _; rfl
  | cons i rest ih =>
    intro h
    rw [List.foldl_cons]
    have hstep : liStep θ (data, st) i = (data, st) := by
      unfold liStep
      rw [h i (List.mem_cons_self i rest)]
    rw [hstep]
    exact ih (fun j hj => h j (List.mem_cons_of_mem i hj))

/-- The whole scan over a one-gap series reduces to the single decision at
the closing anchor `g + 1`. -/
theorem li_fold_gap (θ g : ℕ) (a b : ℚ) :
    linear_interpolate θ ([some a] ++ List.replicate g none ++ [some b])
      = (liStep θ (([some a] ++ List.replicate g none ++ [some b]), some 0)
          (g + 1)).1 := by
  unfold linear_interpolate
  rw [gapList_length, List.range_eq_range']
  have hsplit : List.range' 0 (g + 2) = 0 :: (List.range' 1 g ++ [1 + g]) := by
    rw [show g + 2 = (g + 1) + 1 from rfl, List.range'_succ,
      Nat.zero_add, List.range'_concat, Nat.one_mul]
  rw [hsplit, List.foldl_cons]
  have hstep0 : liStep θ
      (([some a] ++ List.replicate g none ++ [some b]), none) 0
        = (([some a] ++ List.replicate g none ++ [some b]), some 0) := by
    unfold liStep
    rw [gapList_get_first]
  rw [hstep0, List.foldl_append]
  rw [foldl_liStep_skip θ _ _ (List.range' 1 g) (fun i hi => by
    rcases List.mem_range'.mp hi with ⟨j, hj, rfl⟩
    exact gapList_get_mid g a b (1 + 1 * j) (by omega) (by omega))]
  rw [List.foldl_cons, List.foldl_nil]
  rw [show (1 : ℕ) + g = g + 1 from by omega]

/-- With the gap at least the threshold, the in-place scan changes
nothing. -/
theorem linear_interpolate_gap_keep (θ g : ℕ) (a b : ℚ) (hg : θ ≤ g) :
    linear_interpolate θ ([some a] ++ List.replicate g none ++ [some b])
      = [some a] ++ List.replicate g none ++ [some b] := by
  rw [li_fold_gap]
  unfold liStep
  rw [gapList_get_last]
  have hc : ¬ (g + 1 - 0 - 1 < θ) := by omega
  simp only [if_neg hc]

/-- With the gap strictly below the threshold, the scan interpolates the
whole series. -/
theorem linear_interpolate_gap_fill (θ g : ℕ) (a b : ℚ) (hg : g < θ) :
    linear_interpolate θ ([some a] ++ List.replicate g none ++ [some b])
      = interpolateSeries ([some a] ++ List.replicate g none ++ [some b]) := by
  rw [li_fold_gap]
  unfold liStep
  rw [gapList_get_last]
  have hc : g + 1 - 0 - 1 < θ := by omega
  simp only [if_pos hc]
  rw [List.take_zero, List.drop_zero, List.nil_append]
  have hlen : ([some a] ++ List.replicate g none ++ [some b]).length
      = g + 2 := gapList_length g a b
  have htake : ([some a] ++ List.replicate g none ++ [some b]).take
      (g + 1 + 1 - 0) = [some a] ++ List.replicate g none ++ [some b] := by
    rw [show g + 1 + 1 - 0 = g + 2 from by omega, ← hlen, List.take_length]
  have hdrop : ([some a] ++ List.replicate g none ++ [some b]).drop
      (g + 1 + 1) = [] := by
    rw [List.drop_eq_nil_iff_le, hlen]
  rw [htake, hdrop, List.append_nil]

theorem firstSomeIdx_replicate_append (v : ℚ) (rest : List (Option ℚ)) :
    ∀ m : ℕ, firstSomeIdx (List.replicate m none ++ some v :: rest)
      = some (m, v) := by
  intro m
  induction m with
  | zero => rfl
  | succ k ih =>
    rw [List.replicate_succ, List.cons_append, firstSomeIdx, ih]
    rfl

theorem interpolateSeries_get? (xs : List (Option ℚ)) (k : ℕ)
    (hk : k < xs.length) :
    (interpolateSeries xs).get? k = some (interpPos xs k) := by
  unfold interpolateSeries
  rw [List.get?_eq_getElem?, List.getElem?_map, List.getElem?_range hk]
  rfl

theorem interpPos_of_missing (xs : List (Option ℚ)) (k dp dn : ℕ)
    (va vb : ℚ) (hk : xs.get? k = some none)
    (hprev : firstSomeIdx (xs.take k).reverse = some (dp, va))
    (hnext : firstSomeIdx (xs.drop (k + 1)) = some (dn, vb)) :
    interpPos xs k = some (va + (vb - va) * ((dp : ℚ) + 1)
      / (((dp : ℚ) + 1) + ((dn : ℚ) + 1))) := by
  unfold interpPos
  rw [hk, hprev, hnext]

/-- C6 as the code behaves (the claim itself is right about the intent and
the code wrong, see the boundary comment in `insert_inq`): after hourly
reindexing, a run of exactly 168 consecutive missing hours between two
observed values is NOT filled — the scan fills only when
`gap < threshold`, i.e. gaps of at most 167 hours — while a run of 167
missing hours is linearly interpolated (here position 1 of the filled run
gets the value 1 on the ramp from 0 at hour 0 to 168 at hour 168). -/
theorem C6_gap_boundary :
    (linear_interpolate 168
        ([some (0 : ℚ)] ++ List.replicate 168 none ++ [some 169])).get? 1
      = some none ∧
    (linear_interpolate 168
        ([some (0 : ℚ)] ++ List.replicate 167 none ++ [some 168])).get? 1
      = some (some 1) := by
  constructor
  · rw [linear_interpolate_gap_keep 168 168 0 169 (le_refl 168)]
    exact gapList_get_mid 168 0 169 1 (by norm_num) (by norm_num)
  · rw [linear_interpolate_gap_fill 168 167 0 168 (by norm_num)]
    rw [interpolateSeries_get? _ 1 (by rw [gapList_length]; norm_num)]
    have hdrop2 : ([some (0 : ℚ)] ++ List.replicate 167 none
        ++ [some 168]).drop 2 = List.replicate 166 none ++ some 168 :: [] :=
      rfl
    rw [interpPos_of_missing _ 1 0 166 0 168
      (gapList_get_mid 167 0 168 1 (by norm_num) (by norm_num))
      rfl
      (by rw [hdrop2]; exact firstSomeIdx_replicate_append 168 [] 166)]
    norm_num

/-- C10.  The `output_folder` constructor argument of
`StreamflowBacktrack` is ignored: the instance's output folder is the
`data_folder` argument, so the per-file stage output folder used by
`process_backtrack` lies under the input data folder whatever
`output_folder` was passed. -/
theorem C10_output_folder :
    (∀ (d o : String) (f : Option String),
      (StreamflowBacktrack.init d o f).output_folder = d) ∧
    (∀ (d o o' : String) (f f' : Option String) (file : String),
      processOutputFolder (StreamflowBacktrack.init d o f) file
        = processOutputFolder (StreamflowBacktrack.init d o' f') file) ∧
    (∀ (d o : String) (f : Option String) (file : String),
      processOutputFolder (StreamflowBacktrack.init d o f) file
        = pathJoin d (stemOf file)) :=
  ⟨fun _ _ _ => rfl, fun _ _ _ _ _ _ => rfl, fun _ _ _ _ => rfl⟩

/-- C9.  In `back_calculation`, the derived inflow of every row `i ≥ 1`
with defined storage values and distinct consecutive timestamps is
`OTQ + 10^6 · ΔW / Δt` (`Δt` in seconds); the first row's `Δt` is defined
as `0`; and the final INQ column keeps the original INQ where present and
takes the derived value elsewhere. -/
theorem C9_back_calculation :
    (∀ (rows : List BRow) (i : ℕ) (r p : BRow), 1 ≤ i →
      rows.get? i = some r → rows.get? (i - 1) = some p →
      ∀ (wi wp oq : ℚ), r.w = some wi → p.w = some wp → r.otq = some oq →
      r.tm ≠ p.tm →
      inqAccAt rows i
        = some (oq + 10 ^ 6 * ((wi - wp) / ((r.tm : ℚ) - (p.tm : ℚ))))) ∧
    (∀ rows : List BRow, timeDiffAt rows 0 = 0) ∧
    (∀ (rows : List BRow) (i : ℕ) (r : BRow) (q : ℚ),
      rows.get? i = some r → r.inq = some q →
      (back_calculation_inq rows).get? i = some (some q)) ∧
    (∀ (rows : List BRow) (i : ℕ) (r : BRow),
      rows.get? i = some r → r.inq = none →
      (back_calculation_inq rows).get? i = some (inqAccAt rows i)) := by
  refine ⟨?_, ?_, ?_, ?_⟩
  · intro rows i r p hi hr hp wi wp oq hwi hwp hoq htm
    have hi0 : i ≠ 0 := by omega
    have hdt : ((r.tm : ℚ) - (p.tm : ℚ)) ≠ 0 := by
      refine sub_ne_zero_of_ne ?_
      exact_mod_cast htm
    unfold inqAccAt timeDiffAt
    rw [hr, hp]
    simp only [if_neg hi0, hwi, hwp, hoq, osub, odiv, omul, oadd,
      if_neg hdt]
  · intro rows
    unfold timeDiffAt
    simp
  · intro rows i r q hr hq
    have hi : i < rows.length := (List.get?_eq_some.mp hr).1
    unfold back_calculation_inq
    rw [List.get?_eq_getElem?, List.getElem?_map, List.getElem?_range hi]
    rw [Option.map_some']
    rw [show rows.get? i = some r from hr] at *
    simp only [hr, hq]
  · intro rows i r hr hq
    have hi : i < rows.length := (List.get?_eq_some.mp hr).1
    unfold back_calculation_inq
    rw [List.get?_eq_getElem?, List.getElem?_map, List.getElem?_range hi]
    rw [Option.map_some']
    simp only [hr, hq]

/-- Witness for C9 on a concrete two-row file. -/
theorem C9_back_calculation_witness :
    inqAccAt
        [⟨0, some 5, some 1, some 2⟩, ⟨3600, none, some 3, some 4⟩] 1
      = some (4 + 10 ^ 6 * ((3 - 1) / ((3600 : ℚ) - (0 : ℚ)))) ∧
    (back_calculation_inq
        [⟨0, some 5, some 1, some 2⟩, ⟨3600, none, some 3, some 4⟩]).get? 0
      = some (some 5) ∧
    (back_calculation_inq
        [⟨0, some 5, some 1, some 2⟩, ⟨3600, none, some 3, some 4⟩]).get? 1
      = some (inqAccAt
          [⟨0, some 5, some 1, some 2⟩, ⟨3600, none, some 3, some 4⟩] 1) :=
  ⟨C9_back_calculation.1
      [⟨0, some 5, some 1, some 2⟩, ⟨3600, none, some 3, some 4⟩] 1
      ⟨3600, none, some 3, some 4⟩ ⟨0, some 5, some 1, some 2⟩
      (by norm_num) rfl rfl 3 1 4 rfl rfl rfl (by norm_num),
   C9_back_calculation.2.2.1
      [⟨0, some 5, some 1, some 2⟩, ⟨3600, none, some 3, some 4⟩] 0
      ⟨0, some 5, some 1, some 2⟩ 5 rfl rfl,
   C9_back_calculation.2.2.2
      [⟨0, some 5, some 1, some 2⟩, ⟨3600, none, some 3, some 4⟩] 1
      ⟨3600, none, some 3, some 4⟩ rfl rfl⟩

end Streamflow
